import Mathlib

/-!
Verification of the `atomic` crate (filipdulic/atomic) against its
natural-language specification.

The development shallowly embeds the relevant Rust code in Lean:

* `src/atomic_arc.rs` — `AtomicArc`/`SharedArc` and the hazard-pointer
  registry (`Registry`, `ThreadEntry`, `try_transfer_drop_responsibility`).
* `src/hazard_cell.rs` — the older `HazardCell` iteration (its
  `into_inner` is modelled for the double-drop analysis).
* `src/atomic_cell.rs` — `AtomicCell` (sequential semantics of
  `set`/`get`/`replace`/`take`, `compare_and_set`, `add`/`sub`, and the
  `atomic!` lock-freedom dispatch).

Stateful code is embedded by explicit state passing: the process-wide hazard
registry is a value threaded through each operation, and each operation is a
pure function from the pre-state to the post-state plus its observable
effects.  The embedding is sequential (single-threaded interleaving-free
executions): an atomic load followed by a compare-and-swap of the loaded
value always succeeds, and fences are no-ops.  Machine integers are `Nat`
with explicit `% 2 ^ w` where overflow matters.
-/

namespace Atomic

/-! ## Hazard registry (src/atomic_arc.rs)

`ThreadEntry` holds the per-thread hazard slots (`hazards: [AtomicUsize; 6]`)
and the `in_use` flag.  A `Registry` segment holds `entries: [ThreadEntry; 32]`;
the chain of segments linked through `next` is modelled as a `List Registry`.
Fixed array sizes are modelled as lists (the concrete sizes 6 and 32 appear in
the concrete registries used by witnesses). -/

structure ThreadEntry where
  hazards : List Nat
  in_use : Bool
deriving DecidableEq, Repr

structure Registry where
  entries : List ThreadEntry
deriving DecidableEq, Repr

/-- The scan inside `ThreadEntry::try_transfer_drop_responsibility`
(src/atomic_arc.rs lines 397-406): walk the hazard slots in order; on the
first slot whose load equals `ptr`, CAS it from `ptr` to `0` and return
`true`; otherwise return `false`.  Sequentially the CAS that follows a load
observing `ptr` always succeeds.  Returns the flag and the slots after the
scan. -/
def hazardsTransfer : List Nat → Nat → Bool × List Nat
  | [], _ => (false, [])
  | h :: t, ptr =>
      if h = ptr then (true, 0 :: t)
      else
        let r := hazardsTransfer t ptr
        (r.1, h :: r.2)

/-- Model of `ThreadEntry::try_transfer_drop_responsibility` (src/atomic_arc.rs). -/
def ThreadEntry.tryTransfer (e : ThreadEntry) (ptr : Nat) : Bool × ThreadEntry :=
  let r := hazardsTransfer e.hazards ptr
  (r.1, ⟨r.2, e.in_use⟩)

/-- The entry loop of `Registry::try_transfer_drop_responsibility`
(src/atomic_arc.rs lines 348-368): for every entry whose `in_use` flag is
set, try to transfer; stop at the first success. -/
def entriesTransfer : List ThreadEntry → Nat → Bool × List ThreadEntry
  | [], _ => (false, [])
  | e :: es, ptr =>
      if e.in_use then
        let r := e.tryTransfer ptr
        if r.1 then (true, r.2 :: es)
        else
          let rs := entriesTransfer es ptr
          (rs.1, r.2 :: rs.2)
      else
        let rs := entriesTransfer es ptr
        (rs.1, e :: rs.2)

/-- Model of `Registry::try_transfer_drop_responsibility` over the whole segment
chain: the leading `fence(SeqCst)` is a no-op in the sequential embedding;
scan this segment's entries, and on failure recurse into `next`. -/
def registryTryTransfer : List Registry → Nat → Bool × List Registry
  | [], _ => (false, [])
  | seg :: rest, ptr =>
      let r := entriesTransfer seg.entries ptr
      if r.1 then (true, ⟨r.2⟩ :: rest)
      else
        let rs := registryTryTransfer rest ptr
        (rs.1, ⟨r.2⟩ :: rs.2)

/-! ### Slot addresses

A hazard-slot address is a triple: segment index in the registry chain,
entry index in the segment, slot index in the entry. -/

/-- Apply `f` to the element at index `n` (identity when out of range). -/
def listModify (f : α → α) : Nat → List α → List α
  | _, [] => []
  | 0, a :: t => f a :: t
  | Nat.succ n, a :: t => a :: listModify f n t

/-- Read the hazard slot at address `(i, j, k)`, when it exists. -/
def readSlotAt (regs : List Registry) (i j k : Nat) : Option Nat :=
  (regs.get? i).bind fun seg =>
    (seg.entries.get? j).bind fun e => e.hazards.get? k

/-- Read the hazard slot at address `(i, j, k)` (0 when out of range). -/
def readSlot (regs : List Registry) (i j k : Nat) : Nat :=
  (readSlotAt regs i j k).getD 0

/-- The `in_use` flag of the entry at `(i, j)`, when it exists. -/
def entryInUseAt (regs : List Registry) (i j : Nat) : Option Bool :=
  (regs.get? i).bind fun seg => (seg.entries.get? j).map ThreadEntry.in_use

/-- Store `v` into the hazard slot at address `(i, j, k)`. -/
def writeSlot (regs : List Registry) (i j k v : Nat) : List Registry :=
  listModify (fun seg =>
    ⟨listModify (fun e => ⟨e.hazards.set k v, e.in_use⟩) j seg.entries⟩) i regs

/-! ## SharedArc and its drop protocol (src/atomic_arc.rs) -/

/-- Model of `SharedArc<T>`: the observed word `inner` and the protecting hazard slot
(`none` models the null slot pointer produced by `replace`/CAS). -/
structure SharedArc where
  inner : Nat
  slot : Option (Nat × Nat × Nat)
deriving DecidableEq, Repr

/-- Model of `SharedArc::drop` (src/atomic_arc.rs lines 220-247).  Returns the
registry after the drop and a flag recording whether the drop executed
`drop(Arc::from_raw(self.inner as *const T))`, i.e. reconstituted a handle
from `inner` and decremented one strong count.

* null slot: attempt `try_transfer_drop_responsibility(inner)`; decrement
  exactly when it fails (note: the source has no `inner != 0` guard here);
* non-null slot: `slot.swap(0, SeqCst)`; when the previous value differs
  from `inner`, attempt to transfer and decrement exactly when that fails;
  when it equals `inner`, do nothing further. -/
def sharedArcDrop (regs : List Registry) (sa : SharedArc) : List Registry × Bool :=
  match sa.slot with
  | none =>
      let r := registryTryTransfer regs sa.inner
      if r.1 then (r.2, false) else (r.2, true)
  | some (i, j, k) =>
      let prev := readSlot regs i j k
      let regs1 := writeSlot regs i j k 0
      if prev = sa.inner then (regs1, false)
      else
        let r := registryTryTransfer regs1 sa.inner
        if r.1 then (r.2, false) else (r.2, true)

/-- A registry chain with one segment of 32 free entries (6 zero slots each):
the state right after `try_extend_registry` created the first segment and
before any thread registered. -/
def freshRegistry : List Registry :=
  [⟨List.replicate 32 ⟨List.replicate 6 0, false⟩⟩]

/-! ## Lemmas about the transfer scan -/

theorem hazardsTransfer_false_eq (l : List Nat) (ptr : Nat)
    (h : (hazardsTransfer l ptr).1 = false) : (hazardsTransfer l ptr).2 = l := by
  induction l with
  | nil => simp [hazardsTransfer]
  | cons a t ih =>
      by_cases ha : a = ptr
      · simp [hazardsTransfer, ha] at h
      · simp only [hazardsTransfer, if_neg ha] at h ⊢
        simpa using ih h

theorem hazardsTransfer_fst (l : List Nat) (ptr : Nat) :
    (hazardsTransfer l ptr).1 = true ↔ ∃ k, l.get? k = some ptr := by
  induction l with
  | nil => simp [hazardsTransfer]
  | cons a t ih =>
      by_cases ha : a = ptr
      · subst ha
        simp only [hazardsTransfer, if_pos rfl]
        exact ⟨fun _ => ⟨0, rfl⟩, fun _ => rfl⟩
      · simp only [hazardsTransfer, if_neg ha]
        constructor
        · intro h
          obtain ⟨k, hk⟩ := ih.1 h
          exact ⟨k + 1, hk⟩
        · rintro ⟨k, hk⟩
          match k, hk with
          | 0, hk => exact absurd (Option.some.inj hk) ha
          | k + 1, hk => exact ih.2 ⟨k, hk⟩

theorem hazardsTransfer_true_eq (l : List Nat) (ptr : Nat)
    (h : (hazardsTransfer l ptr).1 = true) :
    ∃ k, l.get? k = some ptr ∧ (hazardsTransfer l ptr).2 = l.set k 0 := by
  induction l with
  | nil => simp [hazardsTransfer] at h
  | cons a t ih =>
      by_cases ha : a = ptr
      · exact ⟨0, by simp [ha], by simp [hazardsTransfer, ha]⟩
      · simp only [hazardsTransfer, if_neg ha] at h ⊢
        obtain ⟨k, hk, he⟩ := ih h
        exact ⟨k + 1, hk, by simp [he, List.set]⟩

theorem entriesTransfer_cons_true (hz : List Nat) (es : List ThreadEntry) (ptr : Nat) :
    entriesTransfer (⟨hz, true⟩ :: es) ptr =
      (if (hazardsTransfer hz ptr).1 then
        (true, (⟨(hazardsTransfer hz ptr).2, true⟩ : ThreadEntry) :: es)
      else
        ((entriesTransfer es ptr).1,
          (⟨(hazardsTransfer hz ptr).2, true⟩ : ThreadEntry) :: (entriesTransfer es ptr).2)) := by
  simp [entriesTransfer, ThreadEntry.tryTransfer]

theorem entriesTransfer_cons_false (hz : List Nat) (es : List ThreadEntry) (ptr : Nat) :
    entriesTransfer (⟨hz, false⟩ :: es) ptr =
      ((entriesTransfer es ptr).1,
        (⟨hz, false⟩ : ThreadEntry) :: (entriesTransfer es ptr).2) := by
  simp [entriesTransfer]

theorem entriesTransfer_false_eq (es : List ThreadEntry) (ptr : Nat)
    (h : (entriesTransfer es ptr).1 = false) : (entriesTransfer es ptr).2 = es := by
  induction es with
  | nil => simp [entriesTransfer]
  | cons e es ih =>
      rcases e with ⟨hz, hn⟩
      cases hn with
      | false =>
          rw [entriesTransfer_cons_false] at h ⊢
          rw [ih h]
      | true =>
          rw [entriesTransfer_cons_true] at h ⊢
          cases hf : (hazardsTransfer hz ptr).1 with
          | true => rw [hf] at h; simp at h
          | false =>
              rw [hf] at h
              rw [if_neg Bool.false_ne_true] at h ⊢
              rw [hazardsTransfer_false_eq _ _ hf, ih h]

theorem entriesTransfer_fst (es : List ThreadEntry) (ptr : Nat) :
    (entriesTransfer es ptr).1 = true ↔
      ∃ j e, es.get? j = some e ∧ e.in_use = true ∧ ∃ k, e.hazards.get? k = some ptr := by
  induction es with
  | nil => simp [entriesTransfer]
  | cons e es ih =>
      have split1 :
          (∃ j x, (e :: es).get? j = some x ∧ x.in_use = true ∧
              ∃ k, x.hazards.get? k = some ptr) ↔
            (e.in_use = true ∧ ∃ k, e.hazards.get? k = some ptr) ∨
              (∃ j x, es.get? j = some x ∧ x.in_use = true ∧
                ∃ k, x.hazards.get? k = some ptr) := by
        constructor
        · rintro ⟨j, x, hj, hx⟩
          match j, hj with
          | 0, hj => exact Or.inl (by cases Option.some.inj hj; exact hx)
          | j + 1, hj => exact Or.inr ⟨j, x, hj, hx⟩
        · rintro (⟨hu, hk⟩ | ⟨j, x, hj, hx⟩)
          · exact ⟨0, e, rfl, hu, hk⟩
          · exact ⟨j + 1, x, hj, hx⟩
      rw [split1]
      rcases e with ⟨hz, hn⟩
      cases hn with
      | false =>
          rw [entriesTransfer_cons_false, ih]
          constructor
          · exact Or.inr
          · rintro (⟨hu2, _⟩ | hr)
            · exact absurd hu2 (by simp)
            · exact hr
      | true =>
          rw [entriesTransfer_cons_true]
          cases hf : (hazardsTransfer hz ptr).1 with
          | true =>
              rw [if_pos rfl]
              exact iff_of_true rfl (Or.inl ⟨rfl, (hazardsTransfer_fst _ _).1 hf⟩)
          | false =>
              rw [if_neg Bool.false_ne_true]
              rw [ih]
              constructor
              · exact Or.inr
              · rintro (⟨_, k, hk⟩ | hr)
                · rw [(hazardsTransfer_fst hz ptr).2 ⟨k, hk⟩] at hf
                  exact absurd hf (by simp)
                · exact hr

/-- The mutation `entriesTransfer` performs on success: entry `j` has its
slot `k` CASed from `ptr` to `0`, nothing else changes. -/
theorem entriesTransfer_true_eq (es : List ThreadEntry) (ptr : Nat)
    (h : (entriesTransfer es ptr).1 = true) :
    ∃ j k e, es.get? j = some e ∧ e.in_use = true ∧ e.hazards.get? k = some ptr ∧
      (entriesTransfer es ptr).2 =
        listModify (fun x => ⟨x.hazards.set k 0, x.in_use⟩) j es := by
  induction es with
  | nil => simp [entriesTransfer] at h
  | cons e es ih =>
      rcases e with ⟨hz, hn⟩
      cases hn with
      | false =>
          rw [entriesTransfer_cons_false] at h ⊢
          obtain ⟨j, k, x, hj, hx, hk, he⟩ := ih h
          exact ⟨j + 1, k, x, hj, hx, hk, by rw [he]; rfl⟩
      | true =>
          rw [entriesTransfer_cons_true] at h ⊢
          cases hf : (hazardsTransfer hz ptr).1 with
          | true =>
              rw [if_pos rfl]
              obtain ⟨k, hk, he⟩ := hazardsTransfer_true_eq _ _ hf
              exact ⟨0, k, ⟨hz, true⟩, rfl, rfl, hk, by simp [he, listModify]⟩
          | false =>
              rw [hf] at h
              rw [if_neg Bool.false_ne_true] at h ⊢
              obtain ⟨j, k, x, hj, hx, hk, he⟩ := ih h
              refine ⟨j + 1, k, x, hj, hx, hk, ?_⟩
              rw [hazardsTransfer_false_eq _ _ hf, he]
              rfl

theorem entryInUseAt_cons_zero (seg : Registry) (rest : List Registry) (j : Nat) :
    entryInUseAt (seg :: rest) 0 j = (seg.entries.get? j).map ThreadEntry.in_use := rfl

theorem entryInUseAt_cons_succ (seg : Registry) (rest : List Registry) (i j : Nat) :
    entryInUseAt (seg :: rest) (i + 1) j = entryInUseAt rest i j := rfl

theorem readSlotAt_cons_zero (seg : Registry) (rest : List Registry) (j k : Nat) :
    readSlotAt (seg :: rest) 0 j k =
      (seg.entries.get? j).bind fun e => e.hazards.get? k := rfl

theorem readSlotAt_cons_succ (seg : Registry) (rest : List Registry) (i j k : Nat) :
    readSlotAt (seg :: rest) (i + 1) j k = readSlotAt rest i j k := rfl

theorem writeSlot_cons_zero (seg : Registry) (rest : List Registry) (j k v : Nat) :
    writeSlot (seg :: rest) 0 j k v =
      (⟨listModify (fun e => ⟨e.hazards.set k v, e.in_use⟩) j seg.entries⟩ : Registry)
        :: rest := rfl

theorem writeSlot_cons_succ (seg : Registry) (rest : List Registry) (i j k v : Nat) :
    writeSlot (seg :: rest) (i + 1) j k v = seg :: writeSlot rest i j k v := rfl

theorem registryTryTransfer_false_eq (regs : List Registry) (ptr : Nat)
    (h : (registryTryTransfer regs ptr).1 = false) :
    (registryTryTransfer regs ptr).2 = regs := by
  induction regs with
  | nil => simp [registryTryTransfer]
  | cons seg rest ih =>
      cases hf : (entriesTransfer seg.entries ptr).1 with
      | true => simp [registryTryTransfer, hf] at h
      | false =>
          simp only [registryTryTransfer, hf, if_neg Bool.false_ne_true] at h ⊢
          rw [entriesTransfer_false_eq _ _ hf, ih h]

theorem registryTryTransfer_fst (regs : List Registry) (ptr : Nat) :
    (registryTryTransfer regs ptr).1 = true ↔
      ∃ i j k, entryInUseAt regs i j = some true ∧ readSlotAt regs i j k = some ptr := by
  induction regs with
  | nil => simp [registryTryTransfer, entryInUseAt, readSlotAt]
  | cons seg rest ih =>
      have split1 :
          (∃ i j k, entryInUseAt (seg :: rest) i j = some true ∧
              readSlotAt (seg :: rest) i j k = some ptr) ↔
            (∃ j e, seg.entries.get? j = some e ∧ e.in_use = true ∧
                ∃ k, e.hazards.get? k = some ptr) ∨
              (∃ i j k, entryInUseAt rest i j = some true ∧
                readSlotAt rest i j k = some ptr) := by
        constructor
        · rintro ⟨i, j, k, hu, hs⟩
          match i, hu, hs with
          | 0, hu, hs =>
              rw [entryInUseAt_cons_zero] at hu
              rw [readSlotAt_cons_zero] at hs
              cases hj : seg.entries.get? j with
              | none => rw [hj] at hu; cases hu
              | some e =>
                  rw [hj] at hu hs
                  refine Or.inl ⟨j, e, hj, ?_, k, ?_⟩
                  · exact Option.some.inj hu
                  · exact hs
          | i + 1, hu, hs =>
              rw [entryInUseAt_cons_succ] at hu
              rw [readSlotAt_cons_succ] at hs
              exact Or.inr ⟨i, j, k, hu, hs⟩
        · rintro (⟨j, e, hj, hu, k, hk⟩ | ⟨i, j, k, hu, hs⟩)
          · refine ⟨0, j, k, ?_, ?_⟩
            · rw [entryInUseAt_cons_zero, hj]
              show some e.in_use = some true
              rw [hu]
            · rw [readSlotAt_cons_zero, hj]; exact hk
          · exact ⟨i + 1, j, k, by rw [entryInUseAt_cons_succ]; exact hu,
              by rw [readSlotAt_cons_succ]; exact hs⟩
      rw [split1]
      cases hf : (entriesTransfer seg.entries ptr).1 with
      | true =>
          refine iff_of_true ?_ (Or.inl ((entriesTransfer_fst _ _).1 hf))
          simp [registryTryTransfer, hf]
      | false =>
          simp only [registryTryTransfer, hf, if_neg Bool.false_ne_true, ih]
          constructor
          · exact Or.inr
          · rintro (hseg | hr)
            · rw [(entriesTransfer_fst _ _).2 hseg] at hf
              exact absurd hf (by simp)
            · exact hr

theorem registryTryTransfer_true_eq (regs : List Registry) (ptr : Nat)
    (h : (registryTryTransfer regs ptr).1 = true) :
    ∃ i j k, entryInUseAt regs i j = some true ∧ readSlotAt regs i j k = some ptr ∧
      (registryTryTransfer regs ptr).2 = writeSlot regs i j k 0 := by
  induction regs with
  | nil => simp [registryTryTransfer] at h
  | cons seg rest ih =>
      cases hf : (entriesTransfer seg.entries ptr).1 with
      | true =>
          obtain ⟨j, k, e, hj, hu, hk, he⟩ := entriesTransfer_true_eq _ _ hf
          refine ⟨0, j, k, ?_, ?_, ?_⟩
          · rw [entryInUseAt_cons_zero, hj]
            show some e.in_use = some true
            rw [hu]
          · rw [readSlotAt_cons_zero, hj]; exact hk
          · rw [writeSlot_cons_zero]
            have hstep : registryTryTransfer (seg :: rest) ptr =
                (true, (⟨(entriesTransfer seg.entries ptr).2⟩ : Registry) :: rest) := by
              simp [registryTryTransfer, hf]
            rw [hstep, he]
      | false =>
          simp only [registryTryTransfer, hf, if_neg Bool.false_ne_true] at h ⊢
          obtain ⟨i, j, k, hu, hs, he⟩ := ih h
          refine ⟨i + 1, j, k, by rw [entryInUseAt_cons_succ]; exact hu,
            by rw [readSlotAt_cons_succ]; exact hs, ?_⟩
          rw [writeSlot_cons_succ, entriesTransfer_false_eq _ _ hf, he]

theorem get?_listModify_self (f : α → α) (n : Nat) (l : List α) :
    (listModify f n l).get? n = (l.get? n).map f := by
  induction l generalizing n with
  | nil => cases n <;> rfl
  | cons a t ih =>
      cases n with
      | zero => rfl
      | succ n => exact ih n

theorem get?_listModify_ne (f : α → α) (l : List α) {m n : Nat} (h : m ≠ n) :
    (listModify f n l).get? m = l.get? m := by
  induction l generalizing m n with
  | nil => cases n <;> rfl
  | cons a t ih =>
      cases n with
      | zero =>
          cases m with
          | zero => exact absurd rfl h
          | succ m => rfl
      | succ n =>
          cases m with
          | zero => rfl
          | succ m => exact ih (fun hh => h (by rw [hh]))

theorem set_eq_listModify (l : List α) (n : Nat) (v : α) :
    l.set n v = listModify (fun _ => v) n l := by
  induction l generalizing n with
  | nil => cases n <;> rfl
  | cons a t ih =>
      cases n with
      | zero => rfl
      | succ n =>
          show a :: t.set n v = a :: listModify (fun _ => v) n t
          rw [ih]

theorem readSlotAt_writeSlot_self (regs : List Registry) (i j k v : Nat) :
    readSlotAt (writeSlot regs i j k v) i j k =
      (readSlotAt regs i j k).map (fun _ => v) := by
  unfold readSlotAt writeSlot
  rw [get?_listModify_self]
  cases hseg : regs.get? i with
  | none => rfl
  | some seg =>
      simp only [Option.map_some', Option.some_bind]
      rw [get?_listModify_self]
      cases hj : seg.entries.get? j with
      | none => rfl
      | some e =>
          simp only [Option.map_some', Option.some_bind]
          rw [set_eq_listModify, get?_listModify_self]

theorem readSlotAt_writeSlot_ne (regs : List Registry) (v : Nat) {i j k i2 j2 k2 : Nat}
    (h : (i2, j2, k2) ≠ (i, j, k)) :
    readSlotAt (writeSlot regs i j k v) i2 j2 k2 = readSlotAt regs i2 j2 k2 := by
  by_cases hi : i2 = i
  · subst hi
    by_cases hj2 : j2 = j
    · subst hj2
      have hk2 : k2 ≠ k := fun hk => h (by rw [hk])
      unfold readSlotAt writeSlot
      rw [get?_listModify_self]
      cases regs.get? i2 with
      | none => rfl
      | some seg =>
          simp only [Option.map_some', Option.some_bind]
          rw [get?_listModify_self]
          cases seg.entries.get? j2 with
          | none => rfl
          | some e =>
              simp only [Option.map_some', Option.some_bind]
              rw [set_eq_listModify, get?_listModify_ne _ _ hk2]
    · unfold readSlotAt writeSlot
      rw [get?_listModify_self]
      cases regs.get? i2 with
      | none => rfl
      | some seg =>
          simp only [Option.map_some', Option.some_bind]
          rw [get?_listModify_ne _ _ hj2]
  · unfold readSlotAt writeSlot
    rw [get?_listModify_ne _ _ hi]

/-! ## The claims about the registry and the SharedArc drop protocol -/

/-- Claim C2: `try_transfer_drop_responsibility(ptr)` scans the hazard slots of
the in-use entries across all registry segments; it returns true iff some slot
of an in-use entry held `ptr` (sequentially: iff some `CAS(ptr → 0)` succeeded);
on success exactly one slot is transitioned from `ptr` to `0` (that slot now
reads `0` and every other slot is untouched); on failure no hazard slot has
been modified. -/
theorem registryTryTransfer_spec (regs : List Registry) (ptr : Nat) :
    ((registryTryTransfer regs ptr).1 = true ↔
      ∃ i j k, entryInUseAt regs i j = some true ∧ readSlotAt regs i j k = some ptr) ∧
    ((registryTryTransfer regs ptr).1 = false → (registryTryTransfer regs ptr).2 = regs) ∧
    ((registryTryTransfer regs ptr).1 = true →
      ∃ i j k, entryInUseAt regs i j = some true ∧ readSlotAt regs i j k = some ptr ∧
        (registryTryTransfer regs ptr).2 = writeSlot regs i j k 0 ∧
        readSlotAt (registryTryTransfer regs ptr).2 i j k = some 0 ∧
        ∀ i2 j2 k2, (i2, j2, k2) ≠ (i, j, k) →
          readSlotAt (registryTryTransfer regs ptr).2 i2 j2 k2 = readSlotAt regs i2 j2 k2) := by
  refine ⟨registryTryTransfer_fst regs ptr, registryTryTransfer_false_eq regs ptr, ?_⟩
  intro h
  obtain ⟨i, j, k, hu, hs, he⟩ := registryTryTransfer_true_eq regs ptr h
  refine ⟨i, j, k, hu, hs, he, ?_, ?_⟩
  · rw [he, readSlotAt_writeSlot_self, hs]
    rfl
  · intro i2 j2 k2 hne
    rw [he, readSlotAt_writeSlot_ne regs 0 hne]

/-- A registry with one in-use entry whose last hazard slot protects the
encoded pointer 42, used to instantiate the transfer theorems. -/
def regs42 : List Registry :=
  [⟨[⟨[0, 0, 0, 0, 0, 42], true⟩, ⟨List.replicate 6 0, false⟩]⟩]

theorem registryTryTransfer_spec_witness :
    (registryTryTransfer regs42 42).1 = true ∧
      (∃ i j k, entryInUseAt regs42 i j = some true ∧ readSlotAt regs42 i j k = some 42 ∧
        (registryTryTransfer regs42 42).2 = writeSlot regs42 i j k 0 ∧
        readSlotAt (registryTryTransfer regs42 42).2 i j k = some 0 ∧
        ∀ i2 j2 k2, (i2, j2, k2) ≠ (i, j, k) →
          readSlotAt (registryTryTransfer regs42 42).2 i2 j2 k2 = readSlotAt regs42 i2 j2 k2) :=
  ⟨by decide, (registryTryTransfer_spec regs42 42).2.2 (by decide)⟩

theorem sharedArcDrop_none (regs : List Registry) (inner : Nat) :
    sharedArcDrop regs ⟨inner, none⟩ =
      (if (registryTryTransfer regs inner).1 then ((registryTryTransfer regs inner).2, false)
       else ((registryTryTransfer regs inner).2, true)) := rfl

theorem sharedArcDrop_some (regs : List Registry) (inner i j k : Nat) :
    sharedArcDrop regs ⟨inner, some (i, j, k)⟩ =
      (if readSlot regs i j k = inner then (writeSlot regs i j k 0, false)
       else
        (if (registryTryTransfer (writeSlot regs i j k 0) inner).1 then
          ((registryTryTransfer (writeSlot regs i j k 0) inner).2, false)
         else ((registryTryTransfer (writeSlot regs i j k 0) inner).2, true))) := rfl

/-- Claim C1: the `SharedArc` drop protocol.  With a null hazard-slot pointer
the drop attempts `try_transfer_drop_responsibility(inner)` and decrements one
strong count exactly when that attempt fails; with a non-null slot the drop
swaps the slot to `0`, and when the prior slot value equals `inner` nothing is
freed, while when it differs the drop attempts to pass responsibility along
and decrements one strong count exactly when that attempt fails.  The boolean
result of `sharedArcDrop` records the strong-count decrement. -/
theorem sharedArcDrop_protocol (regs : List Registry) (sa : SharedArc) :
    (sa.slot = none →
      sharedArcDrop regs sa =
        ((registryTryTransfer regs sa.inner).2, !(registryTryTransfer regs sa.inner).1)) ∧
    (∀ i j k, sa.slot = some (i, j, k) → readSlot regs i j k = sa.inner →
      sharedArcDrop regs sa = (writeSlot regs i j k 0, false)) ∧
    (∀ i j k, sa.slot = some (i, j, k) → readSlot regs i j k ≠ sa.inner →
      sharedArcDrop regs sa =
        ((registryTryTransfer (writeSlot regs i j k 0) sa.inner).2,
         !(registryTryTransfer (writeSlot regs i j k 0) sa.inner).1)) := by
  obtain ⟨inner, slot⟩ := sa
  refine ⟨?_, ?_, ?_⟩
  · intro hslot
    change slot = none at hslot
    subst hslot
    show sharedArcDrop regs ⟨inner, none⟩ =
      ((registryTryTransfer regs inner).2, !(registryTryTransfer regs inner).1)
    rw [sharedArcDrop_none]
    cases (registryTryTransfer regs inner).1 with
    | true => rw [if_pos rfl]; rfl
    | false => rw [if_neg Bool.false_ne_true]; rfl
  · intro i j k hslot hprev
    change slot = some (i, j, k) at hslot
    subst hslot
    change readSlot regs i j k = inner at hprev
    rw [sharedArcDrop_some, if_pos hprev]
  · intro i j k hslot hprev
    change slot = some (i, j, k) at hslot
    subst hslot
    change readSlot regs i j k ≠ inner at hprev
    show sharedArcDrop regs ⟨inner, some (i, j, k)⟩ =
      ((registryTryTransfer (writeSlot regs i j k 0) inner).2,
       !(registryTryTransfer (writeSlot regs i j k 0) inner).1)
    rw [sharedArcDrop_some, if_neg hprev]
    cases (registryTryTransfer (writeSlot regs i j k 0) inner).1 with
    | true => rw [if_pos rfl]; rfl
    | false => rw [if_neg Bool.false_ne_true]; rfl

theorem sharedArcDrop_protocol_witness :
    (⟨7, none⟩ : SharedArc).slot = none ∧
      sharedArcDrop freshRegistry ⟨7, none⟩ =
        ((registryTryTransfer freshRegistry 7).2, !(registryTryTransfer freshRegistry 7).1) :=
  ⟨rfl, (sharedArcDrop_protocol freshRegistry ⟨7, none⟩).1 rfl⟩

/-- Claim C7 is violated by the code: dropping the `SharedArc{inner: 0,
slot: null}` produced by `replace(None)` on an empty `AtomicArc`, in a process
whose registry has no in-use entry, takes the null-slot branch, the transfer
attempt fails, and the drop executes `drop(Arc::from_raw(self.inner))` with
`inner = 0` — the flag `true` records that a handle is reconstituted from the
zero (null) encoding and one strong count is decremented.  (`AtomicArc::drop`
guards this path with `raw != 0`; `SharedArc::drop` does not.) -/
theorem sharedArcDrop_null_zero_reconstitutes :
    sharedArcDrop freshRegistry ⟨0, none⟩ = (freshRegistry, true) := by decide

/-! ## AtomicArc::compare_and_set and into_inner -/

/-- The result of `AtomicArc::compare_and_set`: `Ok(())` or `Err(Option<Arc<T>>)`,
with the returned handle encoded as its raw word. -/
inductive CasResult where
  | ok
  | err (ret : Option Nat)
deriving DecidableEq, Repr

structure CasOutcome where
  cell : Nat
  result : CasResult
  regs : List Registry
  decremented : Bool
deriving DecidableEq, Repr

/-- Model of `AtomicArc::compare_and_set` (src/atomic_arc.rs lines 110-132): encode
`new` into the raw word `newRaw` (0 for `None`); CAS the cell from
`current.inner` to `newRaw` with SeqCst.  On success, dispose of the old
strong count by dropping `SharedArc::new(old, ptr::null())`.  On failure,
return `Err(None)` when `newRaw == 0`, else `Err(Some(Arc::from_raw(newRaw)))`
— the caller's new handle reconstituted unconsumed.  `decremented` records
whether the disposal decremented a strong count. -/
def AtomicArc.compareAndSet (regs : List Registry) (cell currentInner newRaw : Nat) :
    CasOutcome :=
  if cell = currentInner then
    let d := sharedArcDrop regs ⟨currentInner, none⟩
    ⟨newRaw, CasResult.ok, d.1, d.2⟩
  else
    ⟨cell, CasResult.err (if newRaw = 0 then none else some newRaw), regs, false⟩

/-- Claim C5: `compare_and_set` returns `Ok(())` iff the slot's word equaled
`current.inner` at the CAS; on success the slot afterwards holds the encoding
of `new` and the evicted strong count is disposed via a null-slot
`SharedArc`; on failure the slot is unchanged and the caller's new handle is
returned intact inside `Err`, with `Err(None)` exactly when `new` encodes the
empty value 0. -/
theorem compareAndSet_spec (regs : List Registry) (cell currentInner newRaw : Nat) :
    ((AtomicArc.compareAndSet regs cell currentInner newRaw).result = CasResult.ok ↔
      cell = currentInner) ∧
    (cell = currentInner →
      AtomicArc.compareAndSet regs cell currentInner newRaw =
        ⟨newRaw, CasResult.ok, (sharedArcDrop regs ⟨currentInner, none⟩).1,
         (sharedArcDrop regs ⟨currentInner, none⟩).2⟩) ∧
    (cell ≠ currentInner →
      AtomicArc.compareAndSet regs cell currentInner newRaw =
        ⟨cell, CasResult.err (if newRaw = 0 then none else some newRaw), regs, false⟩) := by
  refine ⟨⟨?_, ?_⟩, ?_, ?_⟩
  · intro h
    by_cases hc : cell = currentInner
    · exact hc
    · simp only [AtomicArc.compareAndSet, if_neg hc] at h
      cases h
  · intro hc
    simp only [AtomicArc.compareAndSet, if_pos hc]
  · intro hc
    simp only [AtomicArc.compareAndSet, if_pos hc]
  · intro hc
    simp only [AtomicArc.compareAndSet, if_neg hc]

theorem compareAndSet_spec_witness :
    (5 : Nat) = 5 ∧
      AtomicArc.compareAndSet freshRegistry 5 5 7 =
        ⟨7, CasResult.ok, (sharedArcDrop freshRegistry ⟨5, none⟩).1,
         (sharedArcDrop freshRegistry ⟨5, none⟩).2⟩ :=
  ⟨rfl, (compareAndSet_spec freshRegistry 5 5 7).2.1 rfl⟩

/-- Model of `AtomicArc::into_inner` (src/atomic_arc.rs lines 40-51): load the raw
word, `mem::forget(self)` (so `AtomicArc::drop` does not run), and return
`None` when the word is 0, else the handle reconstituted once. -/
def AtomicArc.intoInner (cell : Nat) : Option Nat :=
  if cell = 0 then none else some cell

/-- Model of `HazardCell::drop` (src/hazard_cell.rs lines 67-78): attempt to transfer
drop responsibility for the stored word; when the attempt fails, run
`drop(T::from_raw(inner))`, decrementing one strong count (flag `true`). -/
def hazardCellDrop (regs : List Registry) (cell : Nat) : List Registry × Bool :=
  let r := registryTryTransfer regs cell
  if r.1 then (r.2, false) else (r.2, true)

/-- Model of `HazardCell::into_inner` (src/hazard_cell.rs lines 21-23): the body is
`unsafe { T::from_raw(self.inner.load(SeqCst)) }`.  `self` is consumed by
value but never passed to `mem::forget` and never destructured, so when it
goes out of scope at the end of the function Rust runs `HazardCell::drop` on
it.  Result: the returned raw handle, then the registry and decrement flag of
the implicit drop. -/
def HazardCell.intoInner (regs : List Registry) (cell : Nat) :
    Nat × List Registry × Bool :=
  (cell, hazardCellDrop regs cell)

/-- How many times `HazardCell::into_inner` claims the single strong count
owned by a non-empty slot: once for the returned `T::from_raw`, plus once
more when the implicit `HazardCell::drop` also fails to transfer and runs
`drop(T::from_raw(inner))`. -/
def hazardCellIntoInnerClaims (regs : List Registry) (cell : Nat) : Nat :=
  1 + (if (HazardCell.intoInner regs cell).2.2 then 1 else 0)

/-- Claim C4 is violated by `HazardCell::into_inner`: in a process whose
registry has no in-use entry, consuming a non-empty hazard cell claims the
slot's one strong count twice — once by the returned handle and once by the
implicit `HazardCell::drop` that runs because `self` is not forgotten — so
the referent's destructor double-runs.  (`AtomicArc::into_inner`, by
contrast, calls `mem::forget(self)` and claims the count exactly once.) -/
theorem hazardCell_intoInner_double_claim :
    hazardCellIntoInnerClaims freshRegistry 42 = 2 ∧
      AtomicArc.intoInner 42 = some 42 := by decide

/-! ## AtomicCell (src/atomic_cell.rs)

The cell's contents are modelled by their byte pattern: a value of type `α`
with decidable equality standing for byte-for-byte equality (`byte_eq`).  The
payload's `==` (`PartialEq::eq`), which may be coarser than byte equality, is
a separate boolean relation `veq`. -/

/-- Model of `AtomicCell::compare_and_set` (src/atomic_cell.rs lines 274-297),
sequential semantics with explicit fuel.  `atomic_compare_and_swap` returns
the prior bytes and stores `new` exactly when the prior bytes equal
`current`.  Loop body: if the prior bytes equal `current`, return `true`; if
the prior value is value-unequal to `current` (`veq previous current =
false`), return `false`; otherwise retry with the observed value as the new
`current`.  Returns the flag and the final byte pattern, or `none` when fuel
runs out. -/
def compareAndSetLoop [DecidableEq α] (veq : α → α → Bool) :
    Nat → α → α → α → Option (Bool × α)
  | 0, _, _, _ => none
  | fuel + 1, stored, current, new =>
      let previous := stored
      let stored1 := if previous = current then new else stored
      if previous = current then some (true, stored1)
      else if veq previous current then compareAndSetLoop veq fuel stored1 previous new
      else some (false, stored1)

/-- Claim C3: `compare_and_set(current, new)` never returns `false` when the
stored value satisfies `stored == current` (it returns `true`, after at most
one byte-equality retry with the observed value as the new `current`), and it
returns `false` only when the observed prior value is value-unequal to
`current`. -/
theorem compare_and_set_no_spurious_false [DecidableEq α] (veq : α → α → Bool)
    (stored current new : α) (fuel : Nat) (h : 2 ≤ fuel) :
    (veq stored current = true →
      compareAndSetLoop veq fuel stored current new = some (true, new)) ∧
    (∀ b s2, compareAndSetLoop veq fuel stored current new = some (b, s2) →
      b = false → veq stored current = false) := by
  obtain ⟨fuel, rfl⟩ : ∃ f, fuel = f + 2 := ⟨fuel - 2, by omega⟩
  constructor
  · intro hv
    by_cases hc : stored = current
    · subst hc
      simp [compareAndSetLoop]
    · simp only [compareAndSetLoop, if_neg hc, hv, if_pos]
  · intro b s2 hrun hb
    subst hb
    by_cases hc : stored = current
    · subst hc
      simp [compareAndSetLoop] at hrun
    · cases hv : veq stored current with
      | false => rfl
      | true =>
          simp only [compareAndSetLoop, if_neg hc, hv, if_pos] at hrun
          simp [compareAndSetLoop] at hrun

/-- The equality of `Foo(u8)` from tests/atomic_cell.rs: modulo 5, coarser than byte
equality. -/
def veqMod5 (a b : Nat) : Bool := a % 5 == b % 5

theorem compare_and_set_no_spurious_false_witness :
    (2 ≤ 2 ∧ veqMod5 11 1 = true) ∧
      compareAndSetLoop veqMod5 2 11 1 3 = some (true, 3) :=
  ⟨⟨by decide, by decide⟩,
   (compare_and_set_no_spurious_false veqMod5 11 1 3 2 (by decide)).1 (by decide)⟩

/-- The single-thread operations of claim C8. -/
inductive CellOp (α : Type) where
  | set (v : α)
  | get
  | replace (v : α)
  | take
deriving Repr

/-- Model of `AtomicCell::replace` = `atomic_swap` (src/atomic_cell.rs lines 157-159,
645-663): both dispatch paths (primitive `swap` and lock + `ptr::replace`)
sequentially store `v` and return the prior value; result is (state after,
returned value). -/
def AtomicCell.replace (s v : α) : α × α := (v, s)

/-- Model of `AtomicCell::set` (src/atomic_cell.rs lines 134-142): when
`mem::needs_drop::<T>()`, drop `replace(val)`; otherwise `atomic_store` the
bytes.  Either way the cell afterwards holds `val`. -/
def AtomicCell.set (needsDrop : Bool) (s v : α) : α :=
  if needsDrop then (AtomicCell.replace s v).1 else v

/-- Model of `AtomicCell::take` (src/atomic_cell.rs lines 182-184):
`replace(T::default())` with the default value `dflt`. -/
def AtomicCell.take (dflt s : α) : α × α := AtomicCell.replace s dflt

/-- Model of `AtomicCell::get` = `atomic_load` (src/atomic_cell.rs lines 199-201). -/
def AtomicCell.get (s : α) : α := s

/-- One step of a single-threaded run of the source operations: returns the
state after the operation and the value it returned (`none` for `set`). -/
def runOp (needsDrop : Bool) (dflt : α) (s : α) : CellOp α → α × Option α
  | CellOp.set v => (AtomicCell.set needsDrop s v, none)
  | CellOp.get => (s, some (AtomicCell.get s))
  | CellOp.replace v => ((AtomicCell.replace s v).1, some (AtomicCell.replace s v).2)
  | CellOp.take => ((AtomicCell.take dflt s).1, some (AtomicCell.take dflt s).2)

def runOps (needsDrop : Bool) (dflt : α) : α → List (CellOp α) → α × List (Option α)
  | s, [] => (s, [])
  | s, op :: ops =>
      let r := runOp needsDrop dflt s op
      let rest := runOps needsDrop dflt r.1 ops
      (rest.1, r.2 :: rest.2)

/-- The serial reference semantics, following the spec's words: `get` returns
the current value; `replace(w)` returns the prior value and leaves `w` in the
cell; `set(w)` leaves `w` in the cell; `take()` returns the current value and
leaves the default in the cell. -/
def specRunOp (dflt : α) (s : α) : CellOp α → α × Option α
  | CellOp.set v => (v, none)
  | CellOp.get => (s, some s)
  | CellOp.replace v => (v, some s)
  | CellOp.take => (dflt, some s)

def specRunOps (dflt : α) : α → List (CellOp α) → α × List (Option α)
  | s, [] => (s, [])
  | s, op :: ops =>
      let r := specRunOp dflt s op
      let rest := specRunOps dflt r.1 ops
      (rest.1, r.2 :: rest.2)

/-- Claim C8: every single-threaded sequence of `set`/`get`/`replace`/`take`
on an `AtomicCell` (for either value of `mem::needs_drop::<T>()`) produces
exactly the states and return values of the serial reference semantics. -/
theorem atomicCell_serial_semantics (needsDrop : Bool) (dflt : α) (s : α)
    (ops : List (CellOp α)) :
    runOps needsDrop dflt s ops = specRunOps dflt s ops := by
  induction ops generalizing s with
  | nil => rfl
  | cons op ops ih =>
      have hstep : runOp needsDrop dflt s op = specRunOp dflt s op := by
        cases op with
        | set v => simp [runOp, specRunOp, AtomicCell.set, AtomicCell.replace]
        | get => rfl
        | replace v => rfl
        | take => rfl
      simp only [runOps, specRunOps]
      rw [hstep, ih]

/-! ## Lock-freedom dispatch (the `atomic!` macro) -/

/-- A type's layout: `mem::size_of` and `mem::align_of`. -/
structure TypeLayout where
  size : Nat
  align : Nat
deriving DecidableEq, Repr

/-- Model of `can_transmute::<A, B>()` (src/atomic_cell.rs lines 470-473): sizes must
be equal, and the alignment of `A` must be greater or equal to that of `B`. -/
def can_transmute (a b : TypeLayout) : Bool :=
  decide (a.size = b.size ∧ b.align ≤ a.align)

/-- The availability of the optional primitive atomics: the `nightly` feature
flag and the four `target_has_atomic` widths guarding `AtomicU8`..`AtomicU64`. -/
structure AtomicAvail where
  nightly : Bool
  has8 : Bool
  has16 : Bool
  has32 : Bool
  has64 : Bool
deriving DecidableEq, Repr

/-- Layout of `AtomicUnit`, a zero-sized struct. -/
def unitLayout : TypeLayout := ⟨0, 1⟩
/-- Layout of `AtomicBool` / `bool`: one byte, alignment one. -/
def boolLayout : TypeLayout := ⟨1, 1⟩
def u8Layout : TypeLayout := ⟨1, 1⟩
def u16Layout : TypeLayout := ⟨2, 2⟩
def u32Layout : TypeLayout := ⟨4, 4⟩
def u64Layout : TypeLayout := ⟨8, 8⟩
/-- Layout of `AtomicUsize` for a machine word of `word` bytes. -/
def usizeLayout (word : Nat) : TypeLayout := ⟨word, word⟩

/-- Model of `atomic_is_lock_free::<T>` (src/atomic_cell.rs lines 564-602): the
`atomic!` macro checks `AtomicUnit`, then `AtomicUsize`, then — only under
`cfg(feature = "nightly")` and per-`target_has_atomic` width —
`AtomicU8`/`AtomicU16`/`AtomicU32`/`AtomicU64`; the first transmutable match
breaks out with `true`, otherwise the fallback yields `false`. -/
def atomic_is_lock_free (av : AtomicAvail) (word : Nat) (t : TypeLayout) : Bool :=
  can_transmute t unitLayout ||
  can_transmute t (usizeLayout word) ||
  (av.nightly &&
    ((av.has8 && can_transmute t u8Layout) ||
     (av.has16 && can_transmute t u16Layout) ||
     (av.has32 && can_transmute t u32Layout) ||
     (av.has64 && can_transmute t u64Layout)))

/-- Modelled from the claim's words: the compile-time search *including a
boolean step* — in order the zero-sized unit sentinel, boolean, the
machine-word unsigned, and when available the 8/16/32/64-bit unsigneds. -/
def claimed_is_lock_free (av : AtomicAvail) (word : Nat) (t : TypeLayout) : Bool :=
  can_transmute t unitLayout ||
  can_transmute t boolLayout ||
  can_transmute t (usizeLayout word) ||
  (av.nightly &&
    ((av.has8 && can_transmute t u8Layout) ||
     (av.has16 && can_transmute t u16Layout) ||
     (av.has32 && can_transmute t u32Layout) ||
     (av.has64 && can_transmute t u64Layout)))

/-- The default (stable, non-nightly) build configuration: the 8/16/32/64-bit
unsigned atomics are not available. -/
def stableAvail : AtomicAvail := ⟨false, false, false, false, false⟩

/-- Claim C9 as stated is false: on the default non-nightly build with
8-byte machine words, a type of size 1 and alignment 1 (e.g. `bool`, or a
newtype over `u8`) is found by the claimed search at its boolean step, yet
`atomic_is_lock_free` returns `false` — the `atomic!` macro contains no
boolean step. -/
theorem is_lock_free_claim_counterexample :
    claimed_is_lock_free stableAvail 8 ⟨1, 1⟩ = true ∧
      atomic_is_lock_free stableAvail 8 ⟨1, 1⟩ = false := by decide

/-- The ordered list of primitive atomics the `atomic!` macro actually
searches. -/
def searchList (av : AtomicAvail) (word : Nat) : List TypeLayout :=
  [unitLayout, usizeLayout word] ++
  (if av.nightly then
     (if av.has8 then [u8Layout] else []) ++
     (if av.has16 then [u16Layout] else []) ++
     (if av.has32 then [u32Layout] else []) ++
     (if av.has64 then [u64Layout] else [])
   else [])

theorem atomic_is_lock_free_eq_any (av : AtomicAvail) (word : Nat) (t : TypeLayout) :
    atomic_is_lock_free av word t = (searchList av word).any (fun p => can_transmute t p) := by
  obtain ⟨n, h8, h16, h32, h64⟩ := av
  cases n <;> cases h8 <;> cases h16 <;> cases h32 <;> cases h64 <;>
    simp [atomic_is_lock_free, searchList, Bool.or_assoc]

/-- Claim C9, amended (the search has no boolean step): `is_lock_free` is
true iff the compile-time search — in order the zero-sized unit sentinel, the
machine-word unsigned, and when available the 8/16/32/64-bit unsigneds —
finds a primitive atomic `P` with `sizeof(T) == sizeof(P)` and
`alignof(T) ≥ alignof(P)`; in particular it is true for the `usize`/`isize`
layout and for zero-sized types, and false for `[u8; 1000]`. -/
theorem is_lock_free_spec (av : AtomicAvail) (word : Nat) (t : TypeLayout) :
    (atomic_is_lock_free av word t = true ↔
      ∃ p, p ∈ searchList av word ∧ t.size = p.size ∧ p.align ≤ t.align) ∧
    (∀ a, 1 ≤ a → atomic_is_lock_free av 8 ⟨0, a⟩ = true) ∧
    atomic_is_lock_free av 8 ⟨8, 8⟩ = true ∧
    atomic_is_lock_free av 8 ⟨1000, 1⟩ = false := by
  refine ⟨?_, ?_, ?_, ?_⟩
  · rw [atomic_is_lock_free_eq_any, List.any_eq_true]
    constructor
    · rintro ⟨p, hp, hc⟩
      exact ⟨p, hp, by simpa [can_transmute] using hc⟩
    · rintro ⟨p, hp, hc⟩
      exact ⟨p, hp, by simpa [can_transmute] using hc⟩
  · intro a ha
    simp [atomic_is_lock_free, can_transmute, unitLayout, ha]
  · simp [atomic_is_lock_free, can_transmute, unitLayout, usizeLayout]
  · simp [atomic_is_lock_free, can_transmute, unitLayout, usizeLayout,
      u8Layout, u16Layout, u32Layout, u64Layout]

theorem is_lock_free_spec_witness :
    (1 : Nat) ≤ 1 ∧ atomic_is_lock_free stableAvail 8 ⟨0, 1⟩ = true :=
  ⟨by decide, (is_lock_free_spec stableAvail 8 ⟨0, 1⟩).2.1 1 (by decide)⟩

/-! ## Integer arithmetic (claim C10) -/

/-- The `w`-bit wrapping addition on the natural-number representatives. -/
def wrappingAdd (w a b : Nat) : Nat := (a + b) % 2 ^ w

/-- The `w`-bit wrapping subtraction: add the two's complement of `b`. -/
def wrappingSub (w a b : Nat) : Nat := (a + (2 ^ w - b % 2 ^ w)) % 2 ^ w

/-- Model of `AtomicCell::add`, `fetch_add` path (src/atomic_cell.rs lines 322-332,
388-391): the primitive `fetch_add` stores the wrapped sum and returns the
prior value `p`; the method returns `p.wrapping_add(v)`.  Result is (cell
after, returned value). -/
def addFetch (w p v : Nat) : Nat × Nat :=
  let old := p
  (wrappingAdd w p v, wrappingAdd w old v)

/-- Model of `AtomicCell::add`, striped-lock fallback path: take the lock, perform
`*value = value.wrapping_add(val)` in place, return `*value`. -/
def addLock (w p v : Nat) : Nat × Nat :=
  let value := wrappingAdd w p v
  (value, value)

/-- Model of `AtomicCell::sub`, `fetch_sub` path (src/atomic_cell.rs lines 354-364,
413-416): `fetch_sub` stores the wrapped difference and returns the prior
value `p`; the method returns `p.wrapping_sub(v)`. -/
def subFetch (w p v : Nat) : Nat × Nat :=
  let old := p
  (wrappingSub w p v, wrappingSub w old v)

/-- Model of `AtomicCell::sub`, striped-lock fallback path. -/
def subLock (w p v : Nat) : Nat × Nat :=
  let value := wrappingSub w p v
  (value, value)

/-- Claim C10: for an integer cell of width `w` holding `p`, `add(v)` leaves
the wrapping sum of `p` and `v` in the cell and returns exactly it, and
`sub(v)` leaves the wrapping difference and returns exactly it — on both the
`fetch_add`/`fetch_sub` path and the striped-lock fallback path; the wrapped
results agree with the integers `p + v` and `p - v` modulo `2 ^ w`. -/
theorem add_sub_wraps (w p v : Nat) (_hp : p < 2 ^ w) (hv : v < 2 ^ w) :
    (addFetch w p v = (wrappingAdd w p v, wrappingAdd w p v) ∧
      addLock w p v = (wrappingAdd w p v, wrappingAdd w p v) ∧
      (wrappingAdd w p v : Int) = ((p : Int) + v) % 2 ^ w) ∧
    (subFetch w p v = (wrappingSub w p v, wrappingSub w p v) ∧
      subLock w p v = (wrappingSub w p v, wrappingSub w p v) ∧
      (wrappingSub w p v : Int) = ((p : Int) - v) % 2 ^ w) := by
  refine ⟨⟨rfl, rfl, ?_⟩, rfl, rfl, ?_⟩
  · unfold wrappingAdd
    rw [Int.natCast_mod]
    push_cast
    ring_nf
  · unfold wrappingSub
    rw [Nat.mod_eq_of_lt hv, Int.natCast_mod]
    push_cast [Nat.cast_sub hv.le]
    have hshift : (p : Int) + (2 ^ w - v) = (p - v) + 2 ^ w * 1 := by ring
    rw [hshift, Int.add_mul_emod_self_left]

theorem add_sub_wraps_witness :
    ((200 : Nat) < 2 ^ 8 ∧ (100 : Nat) < 2 ^ 8) ∧
      addFetch 8 200 100 = (wrappingAdd 8 200 100, wrappingAdd 8 200 100) ∧
      (wrappingSub 8 200 100 : Int) = ((200 : Int) - 100) % 2 ^ 8 :=
  ⟨⟨by decide, by decide⟩,
   (add_sub_wraps 8 200 100 (by decide) (by decide)).1.1,
   (add_sub_wraps 8 200 100 (by decide) (by decide)).2.2.2⟩

end Atomic
